import Mathlib

/-! Verification of the spin-lattice simulation core of this repository
    (src/components/SpinGrid.tsx): the lattice builder, the per-frame
    effective-field evaluator and the damped-precession (simplified LLG)
    integrator. Vector components are modelled over the reals. -/

namespace LLGS

noncomputable section

open scoped Classical

/-- Three-component real vector, modelling THREE.Vector3. -/
structure Vec3 where
  x : ℝ
  y : ℝ
  z : ℝ

/-- Componentwise sum (Vector3.add / Vector3.addVectors). -/
def Vec3.add (a b : Vec3) : Vec3 := ⟨a.x + b.x, a.y + b.y, a.z + b.z⟩

/-- Componentwise difference (Vector3.subVectors). -/
def Vec3.sub (a b : Vec3) : Vec3 := ⟨a.x - b.x, a.y - b.y, a.z - b.z⟩

/-- Scalar multiple (Vector3.multiplyScalar). -/
def Vec3.smul (s : ℝ) (v : Vec3) : Vec3 := ⟨s * v.x, s * v.y, s * v.z⟩

/-- Cross product (Vector3.crossVectors). -/
def Vec3.cross (a b : Vec3) : Vec3 :=
  ⟨a.y * b.z - a.z * b.y, a.z * b.x - a.x * b.z, a.x * b.y - a.y * b.x⟩

/-- Dot product (Vector3.dot). -/
def Vec3.dot (a b : Vec3) : ℝ := a.x * b.x + a.y * b.y + a.z * b.z

/-- Squared length (Vector3.lengthSq). -/
def Vec3.lengthSq (v : Vec3) : ℝ := v.x * v.x + v.y * v.y + v.z * v.z

/-- Euclidean length (Vector3.length). -/
def Vec3.length (v : Vec3) : ℝ := Real.sqrt v.lengthSq

/-- The zero vector. -/
def Vec3.zero : Vec3 := ⟨0, 0, 0⟩

/-- Vector3.normalize divides by the length, or by 1 when the length is 0
    (the JS source divides by the expression `length() || 1`), so the zero
    vector normalizes to itself. -/
def Vec3.normalize (v : Vec3) : Vec3 :=
  Vec3.smul (1 / (if v.length = 0 then 1 else v.length)) v

/-- Simulation parameters, read every frame (the SpinGrid props). -/
structure Params where
  gamma : ℝ
  alpha : ℝ
  exchangeStrength : ℝ
  externalFieldStrength : ℝ
  timeStepScale : ℝ
  isFieldInverted : Bool

/-- One lattice site (the Spin record of the source, minus the derived
    placement matrix, which is recomputed from position and direction). -/
structure Spin where
  id : String
  position : Vec3
  direction : Vec3
  neighbors : List ℕ

/-- External (pointer-driven) field term, from the useFrame body:
    H_ext = pos - mouse, strength = externalFieldStrength / (1 + distSq * 5),
    negated when isFieldInverted, then H_ext.normalize().multiplyScalar(strength). -/
def externalField (position mousePos : Vec3) (externalFieldStrength : ℝ)
    (isFieldInverted : Bool) : Vec3 :=
  let offs := Vec3.sub position mousePos
  let distSq := offs.lengthSq
  let strength := externalFieldStrength / (1 + distSq * 5)
  let strength2 := if isFieldInverted then strength * (-1) else strength
  Vec3.smul strength2 offs.normalize

/-- Accumulation loop of the exchange term: add the snapshot entry of each
    neighbor index, skipping indices with no snapshot entry (the source
    guards with a truthiness check on the indexed element). -/
def exchAccum (neighbors : List ℕ) (snapshot : List Vec3) : Vec3 :=
  neighbors.foldl
    (fun acc idx =>
      if h : idx < snapshot.length then Vec3.add acc (snapshot.get ⟨idx, h⟩) else acc)
    Vec3.zero

/-- Exchange field term: neighbor-snapshot sum scaled by exchangeStrength * 1e6. -/
def exchangeField (neighbors : List ℕ) (snapshot : List Vec3)
    (exchangeStrength : ℝ) : Vec3 :=
  Vec3.smul (exchangeStrength * 1000000) (exchAccum neighbors snapshot)

/-- Effective field: sum of the external and exchange terms (H_eff in the source). -/
def effectiveField (position mousePos : Vec3) (neighbors : List ℕ)
    (snapshot : List Vec3) (p : Params) : Vec3 :=
  Vec3.add (externalField position mousePos p.externalFieldStrength p.isFieldInverted)
    (exchangeField neighbors snapshot p.exchangeStrength)

/-- One forward-Euler step of the damped-precession update, exactly as in the
    useFrame body: gamma_eff = gamma / (1 + alpha * alpha), term1 = m x H_eff,
    term2 = m x term1, term1 scaled by -gamma_eff, term2 by -gamma_eff * alpha,
    dmdt = term1 + term2, result = normalize(m + dmdt * dt). -/
def integrate (m H_eff : Vec3) (gamma alpha dt : ℝ) : Vec3 :=
  let gamma_eff := gamma / (1 + alpha * alpha)
  let term1 := Vec3.cross m H_eff
  let term2 := Vec3.cross m term1
  let term1s := Vec3.smul (-gamma_eff) term1
  let term2s := Vec3.smul (-gamma_eff * alpha) term2
  let dmdt := Vec3.add term1s term2s
  (Vec3.add m (Vec3.smul dt dmdt)).normalize

/-- Per-frame time step: dt = min(delta, 0.03) * timeStepScale. -/
def dtOfDelta (delta timeStepScale : ℝ) : ℝ := min delta (3 / 100) * timeStepScale

/-- Full per-site update of one frame: field evaluation followed by the
    integration step, writing only the direction of the site. -/
def stepSpin (mousePos : Vec3) (snapshot : List Vec3) (p : Params) (delta : ℝ)
    (s : Spin) : Spin :=
  { s with
    direction :=
      integrate s.direction
        (effectiveField s.position mousePos s.neighbors snapshot p)
        p.gamma p.alpha (dtOfDelta delta p.timeStepScale) }

/-- Integration step written from the wording of the spec:
    gamma_eff = gamma / (1 + alpha^2), term1 = -gamma_eff * (m x H_eff),
    term2 = -gamma_eff * alpha * (m x (m x H_eff)), dm/dt = term1 + term2,
    m_new = normalize(m + dm/dt * dt). -/
def specIntegrate (m H_eff : Vec3) (gamma alpha dt : ℝ) : Vec3 :=
  let gamma_eff := gamma / (1 + alpha * alpha)
  let t1 := Vec3.smul (-gamma_eff) (Vec3.cross m H_eff)
  let t2 := Vec3.smul (-gamma_eff * alpha) (Vec3.cross m (Vec3.cross m H_eff))
  (Vec3.add m (Vec3.smul dt (Vec3.add t1 t2))).normalize

/-- External term written from the wording of the spec: the vector from
    pointer to site, normalized and scaled by strength / (1 + 5 * d^2),
    defined as the zero vector when the offset has zero length. -/
def specExternalTerm (position mousePos : Vec3) (strength : ℝ) : Vec3 :=
  let offs := Vec3.sub position mousePos
  if offs = Vec3.zero then Vec3.zero
  else Vec3.smul (strength / (1 + 5 * offs.lengthSq)) (Vec3.smul (1 / offs.length) offs)

/-- Exchange term written from the wording of the spec: the sum of the
    snapshot directions of the neighbors (zero vector for an index with no
    snapshot entry), scaled by exchangeStrength * 1e6. -/
def specExchangeTerm (neighbors : List ℕ) (snapshot : List Vec3)
    (exchangeStrength : ℝ) : Vec3 :=
  Vec3.smul (exchangeStrength * 1000000)
    ((neighbors.map (fun idx => snapshot.getD idx Vec3.zero)).foldl Vec3.add Vec3.zero)

/-- Update the site at index k of the state in place (the body of the
    forEach over sites); indices outside the state leave it unchanged. -/
def updateOne (mousePos : Vec3) (snapshot : List Vec3) (p : Params) (delta : ℝ)
    (st : List Spin) (k : ℕ) : List Spin :=
  if h : k < st.length then
    st.set k (stepSpin mousePos snapshot p delta (st.get ⟨k, h⟩))
  else st

/-- Run the per-site updates sequentially in the given iteration order,
    each update reading the shared pre-step snapshot and the current state. -/
def stepSeq (mousePos : Vec3) (snapshot : List Vec3) (p : Params) (delta : ℝ)
    (st : List Spin) (order : List ℕ) : List Spin :=
  order.foldl (updateOne mousePos snapshot p delta) st

/-- One frame step iterated in an arbitrary site order: first snapshot all
    current directions, then update every listed site. -/
def frameStepOrdered (spins : List Spin) (mousePos : Vec3) (p : Params)
    (delta : ℝ) (order : List ℕ) : List Spin :=
  stepSeq mousePos (spins.map Spin.direction) p delta spins order

/-- One frame step in the source iteration order (forEach, index ascending). -/
def frameStep (spins : List Spin) (mousePos : Vec3) (p : Params)
    (delta : ℝ) : List Spin :=
  frameStepOrdered spins mousePos p delta (List.range spins.length)

/-- The fixed grid spacing constant of the source (SPACING = 0.5). -/
def SPACING : ℝ := 1 / 2

/-- Neighbor list of the site at grid coordinates (i, j) in an n by n grid,
    pushed in source order: up, down, left, right, each guarded by the
    corresponding bounds test. -/
def neighborsOf (n i j : ℕ) : List ℕ :=
  (if 0 < i then [(i - 1) * n + j] else []) ++
    (if i + 1 < n then [(i + 1) * n + j] else []) ++
      (if 0 < j then [i * n + (j - 1)] else []) ++
        (if j + 1 < n then [i * n + (j + 1)] else [])

/-- The site built for grid coordinates (i, j): id string, centered position
    (i * spacing - offset, j * spacing - offset, 0) with
    offset = (gridSize - 1) * spacing / 2, initial direction (0, 0, 1),
    and the boundary-aware neighbor list. -/
def mkSpin (g : ℤ) (spacing : ℝ) (i j : ℕ) : Spin :=
  let offset : ℝ := ((g : ℝ) - 1) * spacing / 2
  { id := toString i ++ "-" ++ toString j
    position := ⟨(i : ℝ) * spacing - offset, (j : ℝ) * spacing - offset, 0⟩
    direction := ⟨0, 0, 1⟩
    neighbors := neighborsOf g.toNat i j }

/-- The lattice builder: the nested for-loops over i and j push the sites in
    row-major order; a non-positive gridSize runs the loops zero times. -/
def buildSpins (g : ℤ) (spacing : ℝ) : List Spin :=
  (List.range g.toNat).flatMap
    (fun i => (List.range g.toNat).map (fun j => mkSpin g spacing i j))

/-- A default site, used only as the fallback value of list indexing. -/
def spin0 : Spin :=
  { id := "", position := Vec3.zero, direction := Vec3.zero, neighbors := [] }

/-! Basic vector lemmas. -/

theorem Vec3.lengthSq_nonneg (v : Vec3) : 0 ≤ v.lengthSq := by
  unfold Vec3.lengthSq
  nlinarith [sq_nonneg v.x, sq_nonneg v.y, sq_nonneg v.z]

theorem Vec3.length_nonneg (v : Vec3) : 0 ≤ v.length :=
  Real.sqrt_nonneg _

theorem Vec3.lengthSq_eq_zero_iff (v : Vec3) : v.lengthSq = 0 ↔ v = Vec3.zero := by
  constructor
  · intro h
    cases v with
    | mk a b c =>
      unfold Vec3.lengthSq at h
      simp only [Vec3.zero, Vec3.mk.injEq]
      refine ⟨?_, ?_, ?_⟩ <;> nlinarith [sq_nonneg a, sq_nonneg b, sq_nonneg c]
  · intro h; subst h; unfold Vec3.lengthSq Vec3.zero; ring

theorem Vec3.length_eq_zero_iff (v : Vec3) : v.length = 0 ↔ v = Vec3.zero := by
  unfold Vec3.length
  rw [Real.sqrt_eq_zero (Vec3.lengthSq_nonneg v)]
  exact Vec3.lengthSq_eq_zero_iff v

theorem Vec3.normalize_of_ne_zero (v : Vec3) (h : v ≠ Vec3.zero) :
    v.normalize = Vec3.smul (1 / v.length) v := by
  unfold Vec3.normalize
  rw [if_neg]
  intro h0
  exact h ((Vec3.length_eq_zero_iff v).mp h0)

theorem Vec3.lengthSq_smul (s : ℝ) (v : Vec3) :
    (Vec3.smul s v).lengthSq = s ^ 2 * v.lengthSq := by
  unfold Vec3.smul Vec3.lengthSq; ring

theorem Vec3.length_smul (s : ℝ) (v : Vec3) :
    (Vec3.smul s v).length = |s| * v.length := by
  unfold Vec3.length
  rw [Vec3.lengthSq_smul, Real.sqrt_mul (sq_nonneg s), Real.sqrt_sq_eq_abs]

theorem Vec3.length_normalize (v : Vec3) (h : v ≠ Vec3.zero) :
    v.normalize.length = 1 := by
  have hpos : 0 < v.length := by
    rcases lt_or_eq_of_le (Vec3.length_nonneg v) with h1 | h1
    · exact h1
    · exact absurd ((Vec3.length_eq_zero_iff v).mp h1.symm) h
  rw [Vec3.normalize_of_ne_zero v h, Vec3.length_smul]
  rw [abs_of_pos (one_div_pos.mpr hpos)]
  field_simp

theorem Vec3.dot_self_cross (m u : Vec3) : Vec3.dot m (Vec3.cross m u) = 0 := by
  unfold Vec3.dot Vec3.cross; ring

theorem Vec3.add_zero_right (v : Vec3) : Vec3.add v Vec3.zero = v := by
  unfold Vec3.add Vec3.zero; simp

theorem Vec3.smul_zero_right (s : ℝ) : Vec3.smul s Vec3.zero = Vec3.zero := by
  unfold Vec3.smul Vec3.zero; simp

theorem Vec3.cross_zero_right (v : Vec3) : Vec3.cross v Vec3.zero = Vec3.zero := by
  unfold Vec3.cross Vec3.zero; simp

theorem Vec3.one_smul (v : Vec3) : Vec3.smul 1 v = v := by
  unfold Vec3.smul; simp

theorem Vec3.dot_zero_right (v : Vec3) : Vec3.dot v Vec3.zero = 0 := by
  unfold Vec3.dot Vec3.zero; simp

/-- The exchange accumulation loop equals a fold over the snapshot entries
    looked up with zero as the out-of-range default, for any start value. -/
theorem exchAccum_loop_eq (snapshot : List Vec3) :
    ∀ (nb : List ℕ) (acc : Vec3),
      nb.foldl
          (fun acc idx =>
            if h : idx < snapshot.length then
              Vec3.add acc (snapshot.get ⟨idx, h⟩)
            else acc)
          acc =
        (nb.map (fun idx => snapshot.getD idx Vec3.zero)).foldl Vec3.add acc := by
  intro nb
  induction nb with
  | nil => intro acc; rfl
  | cons n t ih =>
    intro acc
    simp only [List.foldl_cons, List.map_cons]
    by_cases h : n < snapshot.length
    · rw [dif_pos h, ih]
      congr 1
      rw [List.getD_eq_getElem _ _ h]
      rfl
    · rw [dif_neg h, ih]
      congr 1
      rw [List.getD_eq_default _ _ (Nat.le_of_not_lt h), Vec3.add_zero_right]

/-- The exchange accumulation also equals the same loop restricted to the
    in-range neighbor indices, for any start value. -/
theorem exchAccum_loop_eq_filter (snapshot : List Vec3) :
    ∀ (nb : List ℕ) (acc : Vec3),
      nb.foldl
          (fun acc idx =>
            if h : idx < snapshot.length then
              Vec3.add acc (snapshot.get ⟨idx, h⟩)
            else acc)
          acc =
        (nb.filter (fun idx => idx < snapshot.length)).foldl
          (fun acc idx =>
            if h : idx < snapshot.length then
              Vec3.add acc (snapshot.get ⟨idx, h⟩)
            else acc)
          acc := by
  intro nb
  induction nb with
  | nil => intro acc; rfl
  | cons n t ih =>
    intro acc
    by_cases h : n < snapshot.length
    · rw [List.foldl_cons, dif_pos h, ih]
      have hf : (n :: t).filter (fun idx => idx < snapshot.length) =
          n :: t.filter (fun idx => idx < snapshot.length) := by
        rw [List.filter_cons_of_pos (by simpa using h)]
      rw [hf, List.foldl_cons, dif_pos h]
    · rw [List.foldl_cons, dif_neg h, ih]
      have hf : (n :: t).filter (fun idx => idx < snapshot.length) =
          t.filter (fun idx => idx < snapshot.length) := by
        rw [List.filter_cons_of_neg (by simpa using h)]
      rw [hf]

/-- The external-field code equals the spec-worded external term when the
    polarity flag is off. -/
theorem externalField_eq_spec (position mousePos : Vec3) (efs : ℝ) :
    externalField position mousePos efs false = specExternalTerm position mousePos efs := by
  unfold externalField specExternalTerm
  simp only [Bool.false_eq_true, if_false]
  by_cases h : Vec3.sub position mousePos = Vec3.zero
  · rw [if_pos h, h]
    unfold Vec3.normalize
    rw [Vec3.smul_zero_right, Vec3.smul_zero_right]
  · rw [if_neg h, Vec3.normalize_of_ne_zero _ h]
    unfold Vec3.smul
    simp only [Vec3.mk.injEq]
    refine ⟨by ring, by ring, by ring⟩

/-- C1: for every site, the per-frame integration step updates the direction
    exactly by the damped-precession forward-Euler rule of the spec, with
    H_eff the Field Evaluator output and dt = min(delta, 0.03) * timeStepScale;
    in particular this holds for every site whose direction is a unit vector. -/
theorem C1_integration_rule (s : Spin) (mousePos : Vec3) (snapshot : List Vec3)
    (p : Params) (delta : ℝ) :
    (stepSpin mousePos snapshot p delta s).direction =
      specIntegrate s.direction
        (effectiveField s.position mousePos s.neighbors snapshot p)
        p.gamma p.alpha (min delta (3 / 100) * p.timeStepScale) := rfl

/-- C3 (stated for the polarity flag off, whose sign convention the claim
    quotes): the Field Evaluator output is exactly the sum of the spec-worded
    external term and the spec-worded exchange term. -/
theorem C3_field_decomposition (position mousePos : Vec3) (neighbors : List ℕ)
    (snapshot : List Vec3) (gamma alpha exch efs ts : ℝ) :
    effectiveField position mousePos neighbors snapshot
        ⟨gamma, alpha, exch, efs, ts, false⟩ =
      Vec3.add (specExternalTerm position mousePos efs)
        (specExchangeTerm neighbors snapshot exch) := by
  unfold effectiveField specExchangeTerm exchangeField exchAccum
  rw [externalField_eq_spec, exchAccum_loop_eq]

/-- Normalizing a vector of length 1 leaves it unchanged. -/
theorem Vec3.normalize_of_unit (v : Vec3) (hv : v.length = 1) :
    v.normalize = v := by
  unfold Vec3.normalize
  rw [hv, if_neg one_ne_zero]
  norm_num [Vec3.one_smul]

/-- The integrator is the normalization of the explicitly written Euler step. -/
theorem integrate_eq_normalize (m H : Vec3) (g a dt : ℝ) :
    integrate m H g a dt =
      (Vec3.add m
          (Vec3.smul dt
            (Vec3.add (Vec3.smul (-(g / (1 + a * a))) (Vec3.cross m H))
              (Vec3.smul (-(g / (1 + a * a)) * a)
                (Vec3.cross m (Vec3.cross m H)))))).normalize := rfl

/-- C7: the field-polarity flag negates exactly the external term of the
    effective field and leaves the exchange term unchanged; equivalently the
    difference of the two outputs is -2 times the non-inverted external term. -/
theorem C7_polarity_flip (position mousePos : Vec3) (neighbors : List ℕ)
    (snapshot : List Vec3) (gamma alpha exch efs ts : ℝ) :
    effectiveField position mousePos neighbors snapshot
        ⟨gamma, alpha, exch, efs, ts, true⟩ =
      Vec3.add (Vec3.smul (-1) (externalField position mousePos efs false))
        (exchangeField neighbors snapshot exch) ∧
    Vec3.sub
        (effectiveField position mousePos neighbors snapshot
          ⟨gamma, alpha, exch, efs, ts, true⟩)
        (effectiveField position mousePos neighbors snapshot
          ⟨gamma, alpha, exch, efs, ts, false⟩) =
      Vec3.smul (-2) (externalField position mousePos efs false) := by
  constructor <;>
    · unfold effectiveField externalField exchangeField
      simp only [Bool.false_eq_true, if_false, if_true]
      unfold Vec3.add Vec3.sub Vec3.smul
      simp only [Vec3.mk.injEq]
      refine ⟨by ring, by ring, by ring⟩

/-- C8: when the (unit) direction is parallel to the effective field, so that
    the cross product vanishes, both update terms vanish and the integration
    step leaves the direction unchanged. -/
theorem C8_parallel_unchanged (m H : Vec3) (gamma alpha dt : ℝ)
    (hm : m.length = 1) (hpar : Vec3.cross m H = Vec3.zero) :
    integrate m H gamma alpha dt = m := by
  rw [integrate_eq_normalize, hpar, Vec3.cross_zero_right, Vec3.smul_zero_right,
    Vec3.smul_zero_right, Vec3.add_zero_right, Vec3.smul_zero_right,
    Vec3.add_zero_right]
  exact Vec3.normalize_of_unit m hm

/-- C8 witness: an isolated site (no neighbors) with zero external field
    strength has zero effective field and keeps its direction (0, 0, 1). -/
theorem C8_parallel_unchanged_witness :
    integrate ⟨0, 0, 1⟩
        (effectiveField ⟨0, 0, 0⟩ ⟨0, 0, 0⟩ [] [] ⟨1, 1 / 2, 1, 0, 1, false⟩)
        1 (1 / 2) 1 =
      ⟨0, 0, 1⟩ :=
  C8_parallel_unchanged _ _ _ _ _
    (by norm_num [Vec3.length, Vec3.lengthSq])
    (by norm_num [effectiveField, externalField, exchangeField, exchAccum,
      Vec3.sub, Vec3.smul, Vec3.add, Vec3.cross, Vec3.zero])

/-- C2 counterexample: the claim quantifies over every direction, but for the
    zero direction the Euler step returns the zero vector (normalize maps the
    zero vector to itself), whose length is 0, not 1. -/
theorem C2_cex_zero_direction :
    (integrate Vec3.zero ⟨1, 2, 3⟩ 1 1 1).length ≠ 1 := by
  norm_num [integrate, Vec3.zero, Vec3.cross, Vec3.smul, Vec3.add,
    Vec3.normalize, Vec3.length, Vec3.lengthSq]

/-- C2 amended: for every nonzero direction (in particular every unit
    direction), every effective field and all parameter and dt values, the
    direction after one integration step has length exactly 1. -/
theorem C2_unit_length (m H : Vec3) (gamma alpha dt : ℝ)
    (hm : m ≠ Vec3.zero) :
    (integrate m H gamma alpha dt).length = 1 := by
  rw [integrate_eq_normalize]
  apply Vec3.length_normalize
  intro hv
  have hd : Vec3.dot m
      (Vec3.add m
        (Vec3.smul dt
          (Vec3.add
            (Vec3.smul (-(gamma / (1 + alpha * alpha))) (Vec3.cross m H))
            (Vec3.smul (-(gamma / (1 + alpha * alpha)) * alpha)
              (Vec3.cross m (Vec3.cross m H)))))) = m.lengthSq := by
    unfold Vec3.dot Vec3.add Vec3.smul Vec3.cross Vec3.lengthSq
    ring
  rw [hv, Vec3.dot_zero_right] at hd
  exact hm ((Vec3.lengthSq_eq_zero_iff m).mp hd.symm)

/-- C2 amended witness: one concrete integration step from the unit direction
    (0, 0, 1) yields a direction of length 1. -/
theorem C2_unit_length_witness :
    (integrate ⟨0, 0, 1⟩ ⟨1, 0, 0⟩ 1 1 1).length = 1 :=
  C2_unit_length ⟨0, 0, 1⟩ ⟨1, 0, 0⟩ 1 1 1 (by simp [Vec3.zero])

/-- C10: the exchange computation is total for any neighbor index and any
    snapshot length: it equals its restriction to in-range indices, and a
    neighbor index with no snapshot entry contributes the zero vector. -/
theorem C10_exchange_totality (neighbors : List ℕ) (snapshot : List Vec3)
    (e : ℝ) :
    exchangeField neighbors snapshot e =
      exchangeField (neighbors.filter (fun idx => idx < snapshot.length))
        snapshot e ∧
    exchAccum neighbors snapshot =
      (neighbors.map (fun idx => snapshot.getD idx Vec3.zero)).foldl
        Vec3.add Vec3.zero := by
  constructor
  · unfold exchangeField exchAccum
    rw [exchAccum_loop_eq_filter]
  · unfold exchAccum
    rw [exchAccum_loop_eq]

/-- C9 counterexample: for the negative gridSize -1 the builder does not
    signal any invalid-configuration condition; it silently returns a lattice,
    namely the empty one. -/
theorem C9_cex_negative_gridSize : buildSpins (-1) 1 = [] := rfl

/-- C9 amended: every non-positive gridSize makes the builder run its loops
    zero times and silently produce the empty lattice, and the frame step on
    that empty lattice is a defensive no-op; no error is surfaced. -/
theorem C9_empty_lattice (g : ℤ) (s : ℝ) (mousePos : Vec3) (p : Params)
    (delta : ℝ) (h : g ≤ 0) :
    buildSpins g s = [] ∧
    frameStep (buildSpins g s) mousePos p delta = [] := by
  have hb : buildSpins g s = [] := by
    unfold buildSpins
    rw [Int.toNat_eq_zero.mpr h]
    rfl
  exact ⟨hb, by rw [hb]; rfl⟩

/-- C9 amended witness: the concrete gridSize -1 yields the empty lattice and
    a no-op frame step. -/
theorem C9_empty_lattice_witness :
    buildSpins (-1) 1 = [] ∧
    frameStep (buildSpins (-1) 1) ⟨0, 0, 0⟩ ⟨1, 1, 1, 1, 1, false⟩ 1 = [] :=
  C9_empty_lattice (-1) 1 ⟨0, 0, 0⟩ ⟨1, 1, 1, 1, 1, false⟩ 1 (by decide)

/-- Indexing a flatMap of constant-length blocks: block p, offset j. -/
theorem flatMap_blocks_getD {α β : Type} (n : ℕ) (g : β → List α) (d : α) :
    ∀ (xs : List β) (p j : ℕ) (da : β), (∀ b ∈ xs, (g b).length = n) →
      p < xs.length → j < n →
      (xs.flatMap g).getD (p * n + j) d = (g (xs.getD p da)).getD j d := by
  intro xs
  induction xs with
  | nil =>
    intro p j da _ hp _
    exact absurd hp (by simp)
  | cons b t ih =>
    intro p j da hlen hp hj
    have hL : (g b).length = n := hlen b (by simp)
    cases p with
    | zero =>
      simp only [List.flatMap_cons, Nat.zero_mul, Nat.zero_add]
      rw [List.getD_append _ _ _ _ (by rw [hL]; exact hj)]
      rfl
    | succ q =>
      simp only [List.flatMap_cons]
      have hidx : (q + 1) * n + j = (g b).length + (q * n + j) := by rw [hL]; ring
      rw [hidx, List.getD_append_right _ _ _ _ (Nat.le_add_right _ _),
        Nat.add_sub_cancel_left]
      exact ih q j da (fun c hc => hlen c (by simp [hc])) (by simpa using hp) hj

/-- The built lattice indexes row-major: entry i * N + j is the site built
    for grid coordinates (i, j). -/
theorem buildSpins_getD (N : ℕ) (s : ℝ) (d : Spin) (i j : ℕ)
    (hi : i < N) (hj : j < N) :
    (buildSpins (N : ℤ) s).getD (i * N + j) d = mkSpin (N : ℤ) s i j := by
  unfold buildSpins
  rw [Int.toNat_natCast]
  rw [flatMap_blocks_getD N _ d (List.range N) i j 0
    (fun b _ => by simp) (by simpa using hi) hj]
  have hri : (List.range N).getD i 0 = i := by
    rw [List.getD_eq_getElem _ _ (by simpa using hi)]
    exact List.getElem_range i _
  simp only [hri]
  rw [List.getD_eq_getElem _ _ (by simpa using hj), List.getElem_map,
    List.getElem_range]

/-- The built lattice has exactly N * N sites. -/
theorem buildSpins_length (N : ℕ) (s : ℝ) :
    (buildSpins (N : ℤ) s).length = N ^ 2 := by
  unfold buildSpins
  rw [Int.toNat_natCast, List.length_flatMap]
  have h1 : List.map (List.length ∘ fun i => (List.range N).map (mkSpin (N : ℤ) s i))
      (List.range N) = List.replicate N N := by
    have h2 : (List.length ∘ fun i => (List.range N).map (mkSpin (N : ℤ) s i)) =
        Function.const ℕ N := by
      funext i
      simp [Function.const]
    rw [h2, List.map_const, List.length_range]
  rw [h1, List.sum_replicate, smul_eq_mul, pow_two]

/-- Membership in a neighbor list, case by case. -/
theorem mem_neighborsOf (n i j k : ℕ) :
    k ∈ neighborsOf n i j ↔
      (0 < i ∧ k = (i - 1) * n + j) ∨ (i + 1 < n ∧ k = (i + 1) * n + j) ∨
        (0 < j ∧ k = i * n + (j - 1)) ∨ (j + 1 < n ∧ k = i * n + (j + 1)) := by
  unfold neighborsOf
  by_cases h1 : 0 < i <;> by_cases h2 : i + 1 < n <;> by_cases h3 : 0 < j <;>
    by_cases h4 : j + 1 < n <;> simp [h1, h2, h3, h4]

/-- Length of a neighbor list as a sum of boundary indicators. -/
theorem length_neighborsOf (n i j : ℕ) :
    (neighborsOf n i j).length =
      (if 0 < i then 1 else 0) + (if i + 1 < n then 1 else 0) +
        (if 0 < j then 1 else 0) + (if j + 1 < n then 1 else 0) := by
  unfold neighborsOf
  split_ifs <;> simp

/-- Row-major encoding decodes by division and remainder. -/
theorem encode_div_mod (n i j : ℕ) (hn : 0 < n) (hj : j < n) :
    (i * n + j) / n = i ∧ (i * n + j) % n = j := by
  constructor
  · rw [add_comm (i * n) j, mul_comm i n, Nat.add_mul_div_left j i hn,
      Nat.div_eq_of_lt hj, Nat.zero_add]
  · rw [add_comm (i * n) j, mul_comm i n, Nat.add_mul_mod_self_left,
      Nat.mod_eq_of_lt hj]

/-- Row-major encoding stays below n * n. -/
theorem encode_lt (n i j : ℕ) (hi : i < n) (hj : j < n) : i * n + j < n * n :=
  calc i * n + j < i * n + n := Nat.add_lt_add_left hj _
    _ = (i + 1) * n := by ring
    _ ≤ n * n := Nat.mul_le_mul_right n hi

/-- Every neighbor of an in-bounds site is in bounds, decodes to in-bounds
    grid coordinates, and lists the original site among its own neighbors. -/
theorem neighborsOf_symm (n i j k : ℕ) (hi : i < n) (hj : j < n)
    (hk : k ∈ neighborsOf n i j) :
    k < n * n ∧ k / n < n ∧ k % n < n ∧
      i * n + j ∈ neighborsOf n (k / n) (k % n) := by
  have hn : 0 < n := lt_of_le_of_lt (Nat.zero_le j) hj
  rcases (mem_neighborsOf n i j k).mp hk with ⟨h0, hke⟩ | ⟨h0, hke⟩ | ⟨h0, hke⟩ | ⟨h0, hke⟩
  · subst hke
    have hi1 : i - 1 < n := Nat.lt_of_le_of_lt (Nat.sub_le i 1) hi
    obtain ⟨hd, hm⟩ := encode_div_mod n (i - 1) j hn hj
    refine ⟨encode_lt n (i - 1) j hi1 hj, by rw [hd]; exact hi1, by rw [hm]; exact hj, ?_⟩
    rw [hd, hm, mem_neighborsOf]
    right; left
    have hsucc : i - 1 + 1 = i := Nat.succ_pred_eq_of_pos h0
    rw [hsucc]
    exact ⟨hi, rfl⟩
  · subst hke
    obtain ⟨hd, hm⟩ := encode_div_mod n (i + 1) j hn hj
    refine ⟨encode_lt n (i + 1) j h0 hj, by rw [hd]; exact h0, by rw [hm]; exact hj, ?_⟩
    rw [hd, hm, mem_neighborsOf]
    left
    exact ⟨Nat.succ_pos i, by rw [Nat.add_sub_cancel]⟩
  · subst hke
    have hj1 : j - 1 < n := Nat.lt_of_le_of_lt (Nat.sub_le j 1) hj
    obtain ⟨hd, hm⟩ := encode_div_mod n i (j - 1) hn hj1
    refine ⟨encode_lt n i (j - 1) hi hj1, by rw [hd]; exact hi, by rw [hm]; exact hj1, ?_⟩
    rw [hd, hm, mem_neighborsOf]
    right; right; right
    have hsucc : j - 1 + 1 = j := Nat.succ_pred_eq_of_pos h0
    rw [hsucc]
    exact ⟨hj, rfl⟩
  · subst hke
    obtain ⟨hd, hm⟩ := encode_div_mod n i (j + 1) hn h0
    refine ⟨encode_lt n i (j + 1) hi h0, by rw [hd]; exact hi, by rw [hm]; exact h0, ?_⟩
    rw [hd, hm, mem_neighborsOf]
    right; right; left
    exact ⟨Nat.succ_pos j, by rw [Nat.add_sub_cancel]⟩

/-- C5 counterexample: the claim covers every N down to 1, but for gridSize 1
    the unique site sits at corner coordinates (0 = 0 and 0 = N - 1 in both
    axes) yet has 0 neighbors, not 2. -/
theorem C5_cex_gridSize_one :
    ((buildSpins (1 : ℤ) 1).getD (0 * 1 + 0) spin0).neighbors.length = 0 ∧
    ((0 : ℕ) = 0 ∨ (0 : ℕ) = 1 - 1) ∧ ((0 : ℕ) = 0 ∨ (0 : ℕ) = 1 - 1) ∧
    ((buildSpins (1 : ℤ) 1).getD (0 * 1 + 0) spin0).neighbors.length ≠ 2 := by
  have h0 : ((buildSpins (1 : ℤ) 1).getD (0 * 1 + 0) spin0).neighbors.length = 0 := rfl
  exact ⟨h0, Or.inl rfl, Or.inl rfl, by omega⟩

/-- C5 amended: for every N with 1 <= N the builder yields exactly N^2 sites
    with a symmetric, in-bounds neighbor relation; the degree counts 2, 3 and
    4 for corner, non-corner edge and interior sites hold for every N with
    2 <= N (for N = 1 the unique site is a corner with 0 neighbors). -/
theorem C5_lattice_invariants (N : ℕ) (s : ℝ) (d : Spin) (hN : 1 ≤ N) :
    (buildSpins (N : ℤ) s).length = N ^ 2 ∧
    (∀ a b : ℕ, a < N ^ 2 →
      b ∈ ((buildSpins (N : ℤ) s).getD a d).neighbors →
        b < N ^ 2 ∧ a ∈ ((buildSpins (N : ℤ) s).getD b d).neighbors) ∧
    (2 ≤ N → ∀ i j : ℕ, i < N → j < N →
      (((i = 0 ∨ i = N - 1) ∧ (j = 0 ∨ j = N - 1)) →
        ((buildSpins (N : ℤ) s).getD (i * N + j) d).neighbors.length = 2) ∧
      ((((i = 0 ∨ i = N - 1) ∧ ¬(j = 0 ∨ j = N - 1)) ∨
          (¬(i = 0 ∨ i = N - 1) ∧ (j = 0 ∨ j = N - 1))) →
        ((buildSpins (N : ℤ) s).getD (i * N + j) d).neighbors.length = 3) ∧
      ((¬(i = 0 ∨ i = N - 1) ∧ ¬(j = 0 ∨ j = N - 1)) →
        ((buildSpins (N : ℤ) s).getD (i * N + j) d).neighbors.length = 4)) := by
  have hNpos : 0 < N := hN
  refine ⟨buildSpins_length N s, ?_, ?_⟩
  · intro a b ha hb
    have ha' : a < N * N := by rw [← pow_two]; exact ha
    have hdiv : a / N < N := (Nat.div_lt_iff_lt_mul hNpos).mpr ha'
    have hmod : a % N < N := Nat.mod_lt _ hNpos
    have henc : a / N * N + a % N = a := by
      rw [mul_comm]; exact Nat.div_add_mod a N
    have hga := buildSpins_getD N s d (a / N) (a % N) hdiv hmod
    rw [henc] at hga
    have hnb : b ∈ neighborsOf N (a / N) (a % N) := by
      rw [hga] at hb
      simpa [mkSpin, Int.toNat_natCast] using hb
    obtain ⟨hblt, hbdiv, hbmod, hmem⟩ :=
      neighborsOf_symm N (a / N) (a % N) b hdiv hmod hnb
    have hencb : b / N * N + b % N = b := by
      rw [mul_comm]; exact Nat.div_add_mod b N
    have hgb := buildSpins_getD N s d (b / N) (b % N) hbdiv hbmod
    rw [hencb] at hgb
    refine ⟨by rw [pow_two]; exact hblt, ?_⟩
    rw [hgb]
    rw [henc] at hmem
    simpa [mkSpin, Int.toNat_natCast] using hmem
  · intro hN2 i j hi hj
    have key : ((buildSpins (N : ℤ) s).getD (i * N + j) d).neighbors =
        neighborsOf N i j := by
      rw [buildSpins_getD N s d i j hi hj]
      simp [mkSpin, Int.toNat_natCast]
    refine ⟨?_, ?_, ?_⟩ <;> intro hcase <;> rw [key, length_neighborsOf] <;>
      split_ifs <;> omega

/-- C5 amended witness: the 2 by 2 lattice. -/
theorem C5_lattice_invariants_witness :
    (buildSpins ((2 : ℕ) : ℤ) 1).length = 2 ^ 2 ∧
    (∀ a b : ℕ, a < 2 ^ 2 →
      b ∈ ((buildSpins ((2 : ℕ) : ℤ) 1).getD a spin0).neighbors →
        b < 2 ^ 2 ∧ a ∈ ((buildSpins ((2 : ℕ) : ℤ) 1).getD b spin0).neighbors) ∧
    (2 ≤ 2 → ∀ i j : ℕ, i < 2 → j < 2 →
      (((i = 0 ∨ i = 2 - 1) ∧ (j = 0 ∨ j = 2 - 1)) →
        ((buildSpins ((2 : ℕ) : ℤ) 1).getD (i * 2 + j) spin0).neighbors.length = 2) ∧
      ((((i = 0 ∨ i = 2 - 1) ∧ ¬(j = 0 ∨ j = 2 - 1)) ∨
          (¬(i = 0 ∨ i = 2 - 1) ∧ (j = 0 ∨ j = 2 - 1))) →
        ((buildSpins ((2 : ℕ) : ℤ) 1).getD (i * 2 + j) spin0).neighbors.length = 3) ∧
      ((¬(i = 0 ∨ i = 2 - 1) ∧ ¬(j = 0 ∨ j = 2 - 1)) →
        ((buildSpins ((2 : ℕ) : ℤ) 1).getD (i * 2 + j) spin0).neighbors.length = 4)) :=
  C5_lattice_invariants 2 1 spin0 (by decide)

/-- C6: the builder places the site for grid coordinates (i, j) at row-major
    index i * S + j, at position (i * spacing - offset, j * spacing - offset, 0)
    with offset = (S - 1) * spacing / 2, with initial direction (0, 0, 1). -/
theorem C6_site_placement (S : ℕ) (s : ℝ) (d : Spin) (i j : ℕ)
    (hi : i < S) (hj : j < S) :
    (buildSpins (S : ℤ) s).getD (i * S + j) d =
      { id := toString i ++ "-" ++ toString j
        position := ⟨(i : ℝ) * s - ((S : ℝ) - 1) * s / 2,
          (j : ℝ) * s - ((S : ℝ) - 1) * s / 2, 0⟩
        direction := ⟨0, 0, 1⟩
        neighbors := neighborsOf S i j } := by
  rw [buildSpins_getD S s d i j hi hj]
  unfold mkSpin
  simp [Int.toNat_natCast, Int.cast_natCast]

/-- C6 witness: site (1, 0) of the 2 by 2 lattice with spacing 1. -/
theorem C6_site_placement_witness :
    (buildSpins ((2 : ℕ) : ℤ) 1).getD (1 * 2 + 0) spin0 =
      { id := toString 1 ++ "-" ++ toString 0
        position := ⟨((1 : ℕ) : ℝ) * 1 - (((2 : ℕ) : ℝ) - 1) * 1 / 2,
          ((0 : ℕ) : ℝ) * 1 - (((2 : ℕ) : ℝ) - 1) * 1 / 2, 0⟩
        direction := ⟨0, 0, 1⟩
        neighbors := neighborsOf 2 1 0 } :=
  C6_site_placement 2 1 spin0 1 0 (by decide) (by decide)

/-- Reading any other index of a list after a set is unchanged. -/
theorem getD_set_ne {α : Type} (l : List α) (k m : ℕ) (x d : α) (h : k ≠ m) :
    (l.set k x).getD m d = l.getD m d := by
  rw [List.getD_eq_getElem?_getD, List.getD_eq_getElem?_getD,
    List.getElem?_set_ne h]

/-- Reading a set index in bounds returns the written value. -/
theorem getD_set_eq {α : Type} (l : List α) (k : ℕ) (x d : α)
    (h : k < l.length) :
    (l.set k x).getD k d = x := by
  rw [List.getD_eq_getElem?_getD, List.getElem?_set_self h]
  rfl

/-- Writing one site preserves the state length. -/
theorem updateOne_length (mousePos : Vec3) (snapshot : List Vec3) (p : Params)
    (delta : ℝ) (st : List Spin) (k : ℕ) :
    (updateOne mousePos snapshot p delta st k).length = st.length := by
  unfold updateOne
  split
  · rw [List.length_set]
  · rfl

/-- Invariant of the sequential site loop: as long as the pending indices
    still hold their pre-step values, the loop writes the snapshot-determined
    update at each visited in-bounds index and nothing else. -/
theorem stepSeq_getD (mousePos : Vec3) (snapshot : List Vec3) (p : Params)
    (delta : ℝ) (spins : List Spin) (d : Spin) :
    ∀ (order : List ℕ) (st : List Spin), order.Nodup →
      st.length = spins.length →
      (∀ k, k ∈ order → st.getD k d = spins.getD k d) →
      (stepSeq mousePos snapshot p delta st order).length = spins.length ∧
      ∀ a : ℕ,
        (stepSeq mousePos snapshot p delta st order).getD a d =
          if a ∈ order ∧ a < spins.length then
            stepSpin mousePos snapshot p delta (spins.getD a d)
          else st.getD a d := by
  intro order
  induction order with
  | nil =>
    intro st _ hlen _
    refine ⟨hlen, ?_⟩
    intro a
    simp [stepSeq]
  | cons k rest ih =>
    intro st hnd hlen hagree
    have hnd' : rest.Nodup := (List.nodup_cons.mp hnd).2
    have hknr : k ∉ rest := (List.nodup_cons.mp hnd).1
    set st' := updateOne mousePos snapshot p delta st k with hst'
    have hlen' : st'.length = spins.length := by
      rw [hst', updateOne_length, hlen]
    have hagree' : ∀ m, m ∈ rest → st'.getD m d = spins.getD m d := by
      intro m hm
      have hmk : k ≠ m := fun h => hknr (h ▸ hm)
      have hstep : st'.getD m d = st.getD m d := by
        rw [hst']
        unfold updateOne
        split
        · exact getD_set_ne st k m _ d hmk
        · rfl
      rw [hstep]
      exact hagree m (List.mem_cons_of_mem k hm)
    obtain ⟨ihlen, ihget⟩ := ih st' hnd' hlen' hagree'
    have hfold : stepSeq mousePos snapshot p delta st (k :: rest) =
        stepSeq mousePos snapshot p delta st' rest := rfl
    refine ⟨by rw [hfold]; exact ihlen, ?_⟩
    intro a
    rw [hfold, ihget a]
    by_cases har : a ∈ rest ∧ a < spins.length
    · rw [if_pos har, if_pos ⟨List.mem_cons_of_mem k har.1, har.2⟩]
    · rw [if_neg har]
      by_cases hak : a = k
      · subst hak
        by_cases halt : a < spins.length
        · have hlt : a < st.length := by rw [hlen]; exact halt
          have hset : st'.getD a d =
              stepSpin mousePos snapshot p delta (st.get ⟨a, hlt⟩) := by
            rw [hst']
            unfold updateOne
            rw [dif_pos hlt]
            exact getD_set_eq st a _ d hlt
          have hget2 : st.get ⟨a, hlt⟩ = spins.getD a d := by
            rw [List.get_eq_getElem, ← List.getD_eq_getElem st d hlt]
            exact hagree a (List.mem_cons_self a rest)
          rw [hset, hget2, if_pos ⟨List.mem_cons_self a rest, halt⟩]
        · have hnlt : ¬ a < st.length := by rw [hlen]; exact halt
          have hid : st' = st := by
            rw [hst']
            unfold updateOne
            rw [dif_neg hnlt]
          rw [hid, if_neg (fun hc => halt hc.2)]
      · have hsa : st'.getD a d = st.getD a d := by
          rw [hst']
          unfold updateOne
          split
          · exact getD_set_ne st k a _ d (fun h => hak h.symm)
          · rfl
        have hno : ¬(a ∈ k :: rest ∧ a < spins.length) := by
          intro hc
          rcases List.mem_cons.mp hc.1 with h1 | h1
          · exact hak h1
          · exact har ⟨h1, hc.2⟩
        rw [hsa, if_neg hno]

/-- Iterating the sites of a frame in any order that visits every index
    exactly once produces the per-site map over the pre-step snapshot. -/
theorem frameStepOrdered_perm_eq_map (spins : List Spin) (mousePos : Vec3)
    (p : Params) (delta : ℝ) (order : List ℕ)
    (horder : order.Perm (List.range spins.length)) :
    frameStepOrdered spins mousePos p delta order =
      spins.map (stepSpin mousePos (spins.map Spin.direction) p delta) := by
  have hnd : order.Nodup := (horder.nodup_iff).mpr (List.nodup_range _)
  have hmem : ∀ a, a ∈ order ↔ a < spins.length := by
    intro a
    rw [horder.mem_iff, List.mem_range]
  obtain ⟨hlen, hget⟩ := stepSeq_getD mousePos (spins.map Spin.direction) p
    delta spins spin0 order spins hnd rfl (fun _ _ => rfl)
  have hfo : frameStepOrdered spins mousePos p delta order =
      stepSeq mousePos (spins.map Spin.direction) p delta spins order := rfl
  apply List.ext_getElem
  · rw [hfo, hlen, List.length_map]
  · intro n h1 h2
    have hn : n < spins.length := by
      rw [hfo, hlen] at h1
      exact h1
    rw [← List.getD_eq_getElem _ spin0 h1, hfo, hget n,
      if_pos ⟨(hmem n).mpr hn, hn⟩, List.getElem_map]
    rw [List.getD_eq_getElem spins spin0 hn]

/-- C4: two executions of one frame step over the same state, pointer,
    parameters and delta that differ only in the order of site iteration give
    identical resulting site states (and hence identical derived transforms,
    which are a function of each site position and new direction). -/
theorem C4_order_independence (spins : List Spin) (mousePos : Vec3)
    (p : Params) (delta : ℝ) (o1 o2 : List ℕ)
    (h1 : o1.Perm (List.range spins.length))
    (h2 : o2.Perm (List.range spins.length)) :
    frameStepOrdered spins mousePos p delta o1 =
      frameStepOrdered spins mousePos p delta o2 := by
  rw [frameStepOrdered_perm_eq_map spins mousePos p delta o1 h1,
    frameStepOrdered_perm_eq_map spins mousePos p delta o2 h2]

/-- C4 witness: a concrete two-site lattice stepped in the two possible site
    orders gives the same result. -/
theorem C4_order_independence_witness :
    frameStepOrdered
        [{ id := "0-0", position := ⟨0, 0, 0⟩, direction := ⟨0, 0, 1⟩,
            neighbors := [1] },
          { id := "0-1", position := ⟨1, 0, 0⟩, direction := ⟨0, 0, 1⟩,
            neighbors := [0] }]
        ⟨0, 0, 0⟩ ⟨1, 1, 1, 1, 1, false⟩ 1 [0, 1] =
      frameStepOrdered
        [{ id := "0-0", position := ⟨0, 0, 0⟩, direction := ⟨0, 0, 1⟩,
            neighbors := [1] },
          { id := "0-1", position := ⟨1, 0, 0⟩, direction := ⟨0, 0, 1⟩,
            neighbors := [0] }]
        ⟨0, 0, 0⟩ ⟨1, 1, 1, 1, 1, false⟩ 1 [1, 0] :=
  C4_order_independence _ _ _ _ [0, 1] [1, 0] (by decide) (by decide)

end

end LLGS
